import Mathlib

/-!
# Verification of the ocrodjvu concurrent page-OCR pipeline

Shallow embedding of the parts of the repository that the specification's
claims are about:

* `src/lib/utils.py` — `parse_page_numbers` (page-range expansion);
* `src/lib/cli/ocrodjvu.py` — the `Context` pipeline: the worker loop
  `page_thread`, the result store (`results` dict plus one condition
  variable), the cancellation helper `stop_threads`, and the ordered
  drain loop of `_process`, modelled as a labelled transition system so
  that every interleaving of the worker threads and the consuming thread
  can be quantified over;
* `src/lib/engines/tesseract.py` — `get_tesseract_data_directory`,
  `get_languages` (a Python generator), `recognize` (temporary-directory
  lifecycle) and `Engine.__init__`.

Python values are embedded as plain inductive types; Python exceptions as
`Except`; the mutable `results` dictionary as a function `Nat → Slot`
updated pointwise; thread scheduling as an explicit list of events fed to
a step function.  All definitions are executable, so concrete runs can be
evaluated inside theorems with `rfl` / `decide`.
-/

set_option maxRecDepth 4000

namespace Ocrodjvu

/-! ## `src/lib/utils.py`: `parse_page_numbers`

The Python function works on strings; we embed the string operations it
uses (`str.split(',')`, `str.split('-', 1)`, `int(s, 10)`, `xrange`) as
structurally recursive functions over `List Char`, applied to
`String.toList` of the input.
-/

/-- `s.split(sep)` for a one-character separator, Python semantics:
splitting the empty string yields `[""]`. -/
def splitOnChar (sep : Char) : List Char → List (List Char)
  | [] => [[]]
  | c :: cs =>
    let r := splitOnChar sep cs
    if c = sep then [] :: r
    else
      match r with
      | [] => [[c]]
      | g :: gs => (c :: g) :: gs

/-- `s.split(sep, 1)` for a one-character separator: split at the first
occurrence only; `none` when the separator does not occur. -/
def splitCharOnce (sep : Char) : List Char → Option (List Char × List Char)
  | [] => none
  | c :: cs =>
    if c = sep then some ([], cs)
    else
      match splitCharOnce sep cs with
      | none => none
      | some (a, b) => some (c :: a, b)

/-- Strip leading and trailing whitespace (Python `int` accepts it). -/
def trimChars (cs : List Char) : List Char :=
  ((cs.dropWhile Char.isWhitespace).reverse.dropWhile Char.isWhitespace).reverse

/-- Numeric value of a list of decimal digits. -/
def digitsVal (ds : List Char) : Nat :=
  ds.foldl (fun a c => 10 * a + (c.toNat - '0'.toNat)) 0

/-- Python `int(s, 10)`: optional surrounding whitespace, optional sign,
then at least one decimal digit; anything else raises `ValueError`
(`none` here). -/
def pyInt (cs : List Char) : Option Int :=
  let t := trimChars cs
  let signed : Option (Bool × List Char) :=
    match t with
    | '-' :: r => some (true, r)
    | '+' :: r => some (false, r)
    | r => some (false, r)
  match signed with
  | some (neg, ds) =>
    if ds = [] then none
    else if ds.all Char.isDigit then
      some (if neg then -(digitsVal ds : Int) else (digitsVal ds : Int))
    else none
  | none => none

/-- Python `list(xrange(x, y + 1))`: the integers from `x` to `y`
inclusive, empty when `y < x`. -/
def intRange (x y : Int) : List Int :=
  (List.range (y + 1 - x).toNat).map (fun k : Nat => x + (k : Int))

/-- One comma-separated segment of the page-range string: either a single
number or `a-b` expanded with `xrange(a, b + 1)` (empty when inverted).
Mirrors the loop body of `parse_page_numbers` in `src/lib/utils.py`. -/
def parseSegment (seg : List Char) : Except Unit (List Int) :=
  if seg.contains '-' then
    match splitCharOnce '-' seg with
    | none => Except.error ()
    | some (a, b) =>
      match pyInt a, pyInt b with
      | some x, some y => Except.ok (intRange x y)
      | _, _ => Except.error ()
  else
    match pyInt seg with
    | some x => Except.ok [x]
    | none => Except.error ()

/-- `utils.parse_page_numbers`: `None` is returned unchanged; a string is
split on `','`, each segment expanded, and the expansions concatenated in
input order.  `Except.error` stands for the `ValueError`/`TypeError` the
Python function can raise on malformed input. -/
def parse_page_numbers : Option String → Except Unit (Option (List Int))
  | none => Except.ok none
  | some pages => do
    let segs := splitOnChar ',' pages.toList
    let lists ← segs.mapM parseSegment
    return some lists.flatten

/-- `Context._process` lines 451–454: with no page restriction the whole
document's page list is used, otherwise the 1-based requested numbers are
turned into document pages (`document.pages[i - 1]`, an error when out of
range). -/
def selectPages (req : Option (List Int)) (docPages : List Nat) : Except Unit (List Nat) :=
  match req with
  | none => Except.ok docPages
  | some ns =>
    ns.mapM (fun i =>
      if h : 0 ≤ i - 1 ∧ (i - 1).toNat < docPages.length then
        Except.ok (docPages.get ⟨(i - 1).toNat, h.2⟩)
      else Except.error ())

/-! ## `src/lib/cli/ocrodjvu.py`: the concurrent pipeline

`Context._process` builds a dictionary `results` mapping each page index
to one of: `None` (unclaimed), `True` (claimed / in progress), `False`
(no image suitable for OCR), an exception object (failure), or the OCR
result (success).  `n_jobs` worker threads run `Context.page_thread`
over the shared page list, and the main thread drains `results` in page
order, appending one entry per page to the djvused script.

We embed this as a labelled transition system.  Each event is one of the
atomic actions of the Python code — atomic either because it runs under
`with condition:` (claiming, draining) or because it is a single bytecode
dictionary write.  A schedule is a list of events; quantifying over all
valid schedules quantifies over all thread interleavings.
-/

/-- A value of the `results` dictionary. -/
inductive Slot where
  /-- `None`: not yet started. -/
  | unclaimed
  /-- `True`: taken by a worker (or forcibly pre-claimed by `stop_threads`). -/
  | claimed
  /-- `False`: no image suitable for OCR (also recorded for resume-policy errors). -/
  | noImage
  /-- The OCR result for the page (an opaque fragment payload). -/
  | success (frag : Nat)
  /-- A stored exception object, with the `CalledProcessInterrupted.by_user` flag. -/
  | failed (err : Nat) (byUser : Bool)
deriving DecidableEq, Repr

/-- A slot holding a terminal outcome (`False`, a result, or an exception). -/
def Slot.isTerminal : Slot → Bool
  | .noImage | .success _ | .failed _ _ => true
  | _ => false

/-- What `Context.process_page` does for a given page: returns a fragment,
raises `djvu.decode.NotAvailable`, raises `SystemExit`/`KeyboardInterrupt`,
or raises some other exception (with its `by_user` interrupt flag). -/
inductive ProcResult where
  | ok (frag : Nat)
  | notAvailable
  | interrupt
  | err (code : Nat) (byUser : Bool)
deriving DecidableEq, Repr

/-- Control point of one worker thread inside `page_thread`. -/
inductive Phase where
  /-- At the top of the `for page in pages` loop. -/
  | idle
  /-- Between claiming page `p` and storing its outcome. -/
  | processing (p : Nat)
  /-- Thread terminated; `normal = true` iff the `for` loop was exhausted
  (as opposed to the `return` after an error or a propagated interrupt). -/
  | done (normal : Bool)
deriving DecidableEq, Repr

def Phase.isDone : Phase → Bool
  | .done _ => true
  | _ => false

/-- One worker thread: the suffix of the shared page list it still has to
visit, and its control point. -/
structure Worker where
  remaining : List Nat
  phase : Phase
deriving DecidableEq, Repr

/-- Global state shared by the worker threads and the main thread. -/
structure Cfg where
  /-- The `results` dictionary. -/
  slots : Nat → Slot
  /-- The worker threads (length = `n_jobs`). -/
  workers : List Worker
  /-- Pages the drain loop of `_process` has not yet emitted. -/
  asmRemaining : List Nat
  /-- Entries written to the djvused script, in order: page index and the
  fragment printed for it (`none` for a page without OCR). -/
  transcript : List (Nat × Option Nat)
  /-- `stop_threads` has run and the drain loop is aborting. -/
  aborted : Bool
  /-- `self._debug`: intermediate files are retained on close. -/
  debug : Bool
  /-- `sys.exit(1)` was reached after joining the workers. -/
  exited : Bool

/-- Run parameters: the shared ordered page list, the outcome of
processing each page, the `--on-error` policy, `-j`, `-D`. -/
structure Params where
  pages : List Nat
  proc : Nat → ProcResult
  resumeOnError : Bool
  nJobs : Nat
  debug0 : Bool

/-- Pointwise update of the `results` dictionary. -/
def setS (f : Nat → Slot) (n : Nat) (v : Slot) : Nat → Slot :=
  fun m => if m = n then v else f m

/-- `stop_threads` in `Context._process` (lines 461–466): under the lock,
set `results[page.n] = True` for EVERY page of the run — not only the
unclaimed ones. -/
def stop_threads (pages : List Nat) (slots : Nat → Slot) : Nat → Slot :=
  fun n => if n ∈ pages then Slot.claimed else slots n

/-- Scheduler events: which thread performs its next atomic action. -/
inductive Ev where
  /-- Worker `w`, head of its loop: the page is already taken, `continue`. -/
  | wSkip (w : Nat)
  /-- Worker `w`, head of its loop: the page is unclaimed; mark it taken
  (check and write are one step under `with condition:`). -/
  | wClaim (w : Nat)
  /-- Worker `w` returns from `process_page` (or from the exception
  handlers) and stores the outcome of its current page. -/
  | wFinish (w : Nat)
  /-- Worker `w` exhausted the page list: the thread ends normally. -/
  | wExit (w : Nat)
  /-- The main thread drains the next page once its slot is terminal. -/
  | aDrain
  /-- The main thread, after an abort, has joined all workers and runs
  `sys.exit(1)`. -/
  | aExitFail
deriving DecidableEq, Repr

/-- One atomic action of the Python code.  `none` means the event is not
enabled in this configuration (that thread cannot take this action now). -/
def step (P : Params) (c : Cfg) : Ev → Option Cfg
  | .wSkip w =>
    match c.workers[w]? with
    | some ⟨p :: rest, .idle⟩ =>
      match c.slots p with
      | .unclaimed => none
      | _ => some { c with workers := c.workers.set w ⟨rest, .idle⟩ }
    | _ => none
  | .wClaim w =>
    match c.workers[w]? with
    | some ⟨p :: rest, .idle⟩ =>
      match c.slots p with
      | .unclaimed =>
        some { c with slots := setS c.slots p .claimed,
                      workers := c.workers.set w ⟨rest, .processing p⟩ }
      | _ => none
    | _ => none
  | .wFinish w =>
    match c.workers[w]? with
    | some ⟨rem, .processing p⟩ =>
      match P.proc p with
      | .ok f =>
        some { c with slots := setS c.slots p (.success f),
                      workers := c.workers.set w ⟨rem, .idle⟩ }
      | .notAvailable =>
        some { c with slots := setS c.slots p .noImage,
                      workers := c.workers.set w ⟨rem, .idle⟩ }
      | .interrupt =>
        some { c with workers := c.workers.set w ⟨rem, .done false⟩ }
      | .err code byUser =>
        if P.resumeOnError && !byUser then
          some { c with slots := setS c.slots p .noImage,
                        workers := c.workers.set w ⟨rem, .idle⟩ }
        else
          some { c with slots := setS c.slots p (.failed code byUser),
                        workers := c.workers.set w ⟨rem, .done false⟩ }
    | _ => none
  | .wExit w =>
    match c.workers[w]? with
    | some ⟨[], .idle⟩ =>
      some { c with workers := c.workers.set w ⟨[], .done true⟩ }
    | _ => none
  | .aDrain =>
    if c.aborted || c.exited then none
    else
      match c.asmRemaining with
      | [] => none
      | p :: rest =>
        match c.slots p with
        | .unclaimed => none
        | .claimed => none
        | .noImage =>
          some { c with transcript := c.transcript ++ [(p, none)], asmRemaining := rest }
        | .success f =>
          some { c with transcript := c.transcript ++ [(p, some f)], asmRemaining := rest }
        | .failed _ _ =>
          some { c with slots := stop_threads P.pages c.slots,
                        aborted := true, debug := true }
  | .aExitFail =>
    if c.aborted && !c.exited && c.workers.all (fun w => w.phase.isDone) then
      some { c with exited := true }
    else none

/-- Initial configuration of `Context._process`: every slot `None`,
`n_jobs` fresh workers each holding the full page list, nothing drained. -/
def initCfg (P : Params) : Cfg where
  slots := fun _ => Slot.unclaimed
  workers := List.replicate P.nJobs ⟨P.pages, Phase.idle⟩
  asmRemaining := P.pages
  transcript := []
  aborted := false
  debug := P.debug0
  exited := false

/-- Execute a schedule.  `none` when the schedule asks a thread for an
action it cannot take. -/
def run (P : Params) : Cfg → List Ev → Option Cfg
  | c, [] => some c
  | c, e :: tr =>
    match step P c e with
    | some c' => run P c' tr
    | none => none

/-! ### Trace observers

Pure observers over schedules: which claim transitions (slot goes
`None → True` in a worker's check-and-take step) and which terminal
recordings (a worker stores `False`, a result, or an exception) happen,
as `(worker, page index)` pairs, in order. -/

/-- The claim performed by one event, if any. -/
def claimRec (c : Cfg) : Ev → List (Nat × Nat)
  | .wClaim w =>
    match c.workers[w]? with
    | some ⟨p :: _, .idle⟩ =>
      match c.slots p with
      | .unclaimed => [(w, p)]
      | _ => []
    | _ => []
  | _ => []

/-- The terminal recording performed by one event, if any (an interrupt
stores nothing: the slot stays `True`). -/
def recRec (P : Params) (c : Cfg) : Ev → List (Nat × Nat)
  | .wFinish w =>
    match c.workers[w]? with
    | some ⟨_, .processing p⟩ =>
      match P.proc p with
      | .interrupt => []
      | _ => [(w, p)]
    | _ => []
  | _ => []

/-- All claims along a schedule (stopping at an invalid event). -/
def claimsAlong (P : Params) : Cfg → List Ev → List (Nat × Nat)
  | _, [] => []
  | c, e :: tr =>
    claimRec c e ++
      match step P c e with
      | some c' => claimsAlong P c' tr
      | none => []

/-- All terminal recordings along a schedule. -/
def recsAlong (P : Params) : Cfg → List Ev → List (Nat × Nat)
  | _, [] => []
  | c, e :: tr =>
    recRec P c e ++
      match step P c e with
      | some c' => recsAlong P c' tr
      | none => []

/-- Number of workers currently processing page `i`. -/
def procs (c : Cfg) (i : Nat) : Nat :=
  c.workers.countP (fun w => w.phase = Phase.processing i)

end Ocrodjvu

namespace Tesseract

/-! ## `src/lib/engines/tesseract.py`

The module talks to the outside world through `ipc.Subprocess`, file
system probes and `tempfile`/`shutil`.  Those observations are collected
in environment records; the module's own control flow is embedded
faithfully over them.
-/

/-- Exception classes from `lib/errors.py` used by the tesseract engine. -/
inductive TessError where
  | unknownLanguageList
  | engineNotFound (name : String)
  | invalidLanguageId (lang : String)
deriving DecidableEq, Repr

/-- Everything `get_tesseract_data_directory` / `get_languages` observe
about the machine: whether spawning `tesseract` raises `OSError`, the
single stderr line read, whether `wait()` raises `CalledProcessError`
(tesseract invoked with bogus arguments is EXPECTED to fail), whether a
path is a directory, and the `*.unicharset` glob results. -/
structure TessEnv where
  spawnRaisesOSError : Bool
  stderrLine : String
  waitRaisesCPE : Bool
  isDir : String → Bool
  globUnicharset : String → List String

/-- The regexp `^Unable to load unicharset file (/.*)/[.]unicharset\n$`
(DOTALL): fixed prefix, greedy group starting with `/`, fixed suffix. -/
def errorPatternMatch (line : String) : Option String :=
  let pre := "Unable to load unicharset file "
  let suf := "/.unicharset\n"
  if pre.length + suf.length ≤ line.length
      && line.startsWith pre && line.endsWith suf then
    let mid := (line.drop pre.length).dropRight suf.length
    if mid.startsWith "/" then some mid else none
  else none

/-- The regexp `^[a-z]{3}(-[a-z]+)?$`. -/
def languagePatternMatch (s : String) : Bool :=
  let lower := fun c : Char => 'a' ≤ c && c ≤ 'z'
  match s.toList with
  | a :: b :: c :: rest =>
    lower a && lower b && lower c &&
      (match rest with
       | [] => true
       | '-' :: t => !t.isEmpty && t.all lower
       | _ => false)
  | _ => false

/-- `os.path.basename`: the part after the last `/`. -/
def basename (s : String) : String :=
  (s.splitOn "/").getLastD s

/-- `os.path.splitext(s)[0]`: drop the part after the last `.` (when any). -/
def splitextBase (s : String) : String :=
  match s.splitOn "." with
  | [] => s
  | [_] => s
  | ps => String.intercalate "." ps.dropLast

/-- `get_tesseract_data_directory`: spawn `tesseract '' '' -l ''`
(`OSError` → `UnknownLanguageList`); in the `try` body match the stderr
line against the error pattern and check the captured path is a
directory (failure → `UnknownLanguageList`); in the `finally` clause call
`wait()` — if `wait()` does NOT raise `CalledProcessError`, raise
`UnknownLanguageList`, replacing the body's outcome. -/
def get_tesseract_data_directory (env : TessEnv) : Except TessError String :=
  if env.spawnRaisesOSError then Except.error .unknownLanguageList
  else
    let body : Except TessError String :=
      match errorPatternMatch env.stderrLine with
      | none => Except.error .unknownLanguageList
      | some directory =>
        if env.isDir directory then Except.ok directory
        else Except.error .unknownLanguageList
    if env.waitRaisesCPE then body else Except.error .unknownLanguageList

/-- A Python generator object: calling the generator function only
builds this value; the function body runs when the generator is first
iterated, which is when any exception inside the body is raised. -/
structure PyGenerator (α : Type) where
  force : Unit → Except TessError (List α)

/-- `get_languages` — a GENERATOR function (`yield` in its body): the
body probes the data directory (which may raise `UnknownLanguageList`)
and yields each `*.unicharset` basename matching the language pattern. -/
def get_languages (env : TessEnv) : PyGenerator String :=
  ⟨fun _ => do
    let directory ← get_tesseract_data_directory env
    return ((env.globUnicharset directory).map
      (fun f => splitextBase (basename f))).filter languagePatternMatch⟩

/-- `has_language`: syntactically invalid ids raise `InvalidLanguageId`;
otherwise probe for `<lang>.unicharset` in the data directory. -/
def has_language (env : TessEnv) (language : String) (fileExists : String → Bool) :
    Except TessError Bool :=
  if !languagePatternMatch language then Except.error (.invalidLanguageId language)
  else do
    let _ ← get_tesseract_data_directory env
    return fileExists language

/-- The tesseract `Engine` object. -/
structure Engine where
  name : String
deriving DecidableEq, Repr

/-- `Engine.__init__`:

```
try:
    get_languages()
except errors.UnknownLanguageList:
    raise errors.EngineNotFound(self.name)
```

`get_languages` is a generator function, so the call expression only
constructs a generator object and can itself raise nothing — the `try`
body is the pure value `Except.ok (get_languages env)`.  The handler is
embedded as written. -/
def Engine.init (env : TessEnv) : Except TessError Engine :=
  let tryBody : Except TessError (PyGenerator String) :=
    Except.ok (get_languages env)
  match tryBody with
  | Except.ok _ => Except.ok { name := "tesseract" }
  | Except.error .unknownLanguageList => Except.error (.engineNotFound "tesseract")
  | Except.error e => Except.error e

/-! ### `recognize`: temporary-directory lifecycle

`recognize` is a `contextlib.contextmanager`: it makes a temporary
directory, runs tesseract, hands the output file to the caller's `with`
body at the `yield`, and removes the directory in a `finally` clause.
We record the filesystem-visible actions in order, so release on every
exit path is an inspectable property of the action trace. -/

/-- Filesystem/process actions `recognize` performs, in order. -/
inductive FsOp where
  | mkdtemp (dir : Nat)
  | spawnTesseract
  | waitTesseract
  | openOutput
  | rmtree (dir : Nat)
deriving DecidableEq, Repr

/-- Which steps inside the `try` body of `recognize` raise. -/
structure RecognizeEnv where
  spawnRaises : Bool
  waitRaises : Bool
  openRaises : Bool

/-- Python exceptions that can escape `recognize`. -/
inductive RecErr where
  | osError
  | calledProcessError
  | ioError
  | fromBody (code : Nat)
deriving DecidableEq, Repr

/-- `recognize(image_file, language)`: `mkdtemp`; then in a `try` clause
spawn tesseract, `wait()`, open the output file and run the caller's
`with` body (`body` is its outcome, since exceptions in the body
propagate through the generator at the `yield`); the `finally` clause
runs `shutil.rmtree` on the directory whatever happened. -/
def recognize (env : RecognizeEnv) (body : Except Nat α) :
    Except RecErr α × List FsOp :=
  let dir : Nat := 0
  let attempt : Except RecErr α × List FsOp :=
    if env.spawnRaises then (Except.error .osError, [])
    else if env.waitRaises then (Except.error .calledProcessError, [.spawnTesseract])
    else if env.openRaises then
      (Except.error .ioError, [.spawnTesseract, .waitTesseract])
    else
      match body with
      | Except.ok a => (Except.ok a, [.spawnTesseract, .waitTesseract, .openOutput])
      | Except.error e =>
        (Except.error (.fromBody e), [.spawnTesseract, .waitTesseract, .openOutput])
  (attempt.1, FsOp.mkdtemp dir :: attempt.2 ++ [FsOp.rmtree dir])

end Tesseract

namespace Ocrodjvu

/-! ## Verification-side definitions

Counting observers, state invariants, and concrete runs used to
instantiate the theorems below.  Nothing here adds behaviour: these
definitions only observe the transition system. -/

/-- Occurrences in an event record list that concern page index `i`. -/
def countPair (l : List (Nat × Nat)) (i : Nat) : Nat :=
  l.countP (fun x => x.2 == i)

/-- 1 while the slot is still unclaimed, else 0: an upper bound on the
claims that can still happen for that index. -/
def uBound (c : Cfg) (i : Nat) : Nat :=
  if c.slots i = Slot.unclaimed then 1 else 0

/-- Upper bound on the terminal recordings that can still happen for
index `i`: one pending claim plus the workers already processing it. -/
def vBound (c : Cfg) (i : Nat) : Nat :=
  uBound c i + procs c i

/-- Every worker thread has terminated. -/
def allDone (c : Cfg) : Prop :=
  ∀ w ∈ c.workers, w.phase.isDone = true

/-- Reachability invariant of the pipeline:
1. a worker whose loop ended normally has visited the whole page list;
2. a page a worker has moved past is no longer unclaimed;
3. a claimed slot is explained by cancellation, by a worker currently
   processing it, or by a worker that died holding it. -/
def Inv (P : Params) (c : Cfg) : Prop :=
  (∀ w ∈ c.workers, w.phase = Phase.done true → w.remaining = []) ∧
  (∀ w ∈ c.workers, ∀ p ∈ P.pages, p ∉ w.remaining → c.slots p ≠ Slot.unclaimed) ∧
  (∀ i : Nat, c.slots i = Slot.claimed →
    c.aborted = true ∨ 0 < procs c i ∨
      ∃ k : Nat, ∃ wk : Worker, c.workers[k]? = some wk ∧ wk.phase = Phase.done false)

/-- `exited` is only reached after every worker thread was joined. -/
def JoinedOnExit (c : Cfg) : Prop :=
  c.exited = true → allDone c

/-- At most one worker processes a page at a time, and a page being
processed has a `True` (claimed) slot — so the `assert results[n] is
True` before a worker stores its result in `page_thread` can never
fire. -/
def ProcInv (c : Cfg) : Prop :=
  ∀ i : Nat, procs c i ≤ 1 ∧ (0 < procs c i → c.slots i = Slot.claimed)

/-- The configuration a valid schedule produces (the initial one as a
dummy on an invalid schedule; theorems use it only via `run … = some …`,
provable by `rfl` exactly when the schedule is valid). -/
def runD (P : Params) (tr : List Ev) : Cfg :=
  (run P (initCfg P) tr).getD (initCfg P)

/-- The configuration one enabled event produces (dummy when disabled). -/
def stepD (P : Params) (c : Cfg) (e : Ev) : Cfg :=
  (step P c e).getD c

/-- A run requesting pages in the order 37, 17 (as `-p "38,18"` would,
1-based), one worker, every page OCRing successfully. -/
def Pdesc : Params :=
  { pages := [37, 17], proc := fun n => ProcResult.ok n,
    resumeOnError := false, nJobs := 1, debug0 := false }

/-- Schedule for `Pdesc`: the single worker claims and finishes both
pages, exits, then the main thread drains both. -/
def trDesc : List Ev :=
  [Ev.wClaim 0, Ev.wFinish 0, Ev.wClaim 0, Ev.wFinish 0, Ev.wExit 0,
   Ev.aDrain, Ev.aDrain]

/-- One page, one worker, successful OCR. -/
def Pone : Params :=
  { pages := [0], proc := fun _ => ProcResult.ok 5,
    resumeOnError := false, nJobs := 1, debug0 := false }

def trOne : List Ev := [Ev.wClaim 0, Ev.wFinish 0, Ev.wExit 0]

/-- Two pages, page 0 raising an ordinary error, resume policy. -/
def PerrResume : Params :=
  { pages := [0, 1], proc := fun _ => ProcResult.err 7 false,
    resumeOnError := true, nJobs := 1, debug0 := false }

/-- Two pages, page 0 raising an ordinary error, abort policy. -/
def PerrAbort : Params :=
  { pages := [0, 1], proc := fun _ => ProcResult.err 7 false,
    resumeOnError := false, nJobs := 1, debug0 := false }

/-- One page whose processing is interrupted by the user
(`CalledProcessInterrupted` with `by_user`), under the RESUME policy. -/
def PuserInt : Params :=
  { pages := [0, 1], proc := fun _ => ProcResult.err 9 true,
    resumeOnError := true, nJobs := 1, debug0 := false }

/-- The environment of a machine without a usable tesseract binary:
spawning it raises `OSError`. -/
def envNoTesseract : Tesseract.TessEnv :=
  { spawnRaisesOSError := true, stderrLine := "", waitRaisesCPE := false,
    isDir := fun _ => false, globUnicharset := fun _ => [] }

end Ocrodjvu

namespace Ocrodjvu

/-! ## Theorems -/

/-! ### Page-range expansion (`parse_page_numbers`) -/

/-- A range expansion `xrange(x, y + 1)` is strictly ascending. -/
theorem intRange_ascending (x y : Int) : List.Pairwise (· < ·) (intRange x y) := by
  unfold intRange
  rw [List.pairwise_map]
  exact (List.pairwise_lt_range _).imp (fun {a b} h => by omega)

/-- Every successfully expanded segment is strictly ascending. -/
theorem parseSegment_ascending (seg : List Char) (l : List Int)
    (h : parseSegment seg = Except.ok l) : List.Pairwise (· < ·) l := by
  unfold parseSegment at h
  split at h
  · split at h
    · exact absurd h (by simp)
    · split at h
      · cases h
        exact intRange_ascending ..
      · exact absurd h (by simp)
  · split at h
    · cases h
      simp
    · exact absurd h (by simp)

/-- C3, counterexample: `"37,17"` is a valid page-range string (both
segments parse), yet its expansion `[37, 17]` is not ascending — the
universally quantified ascending-order claim fails on it. -/
theorem parse_page_numbers_descending_input :
    parse_page_numbers (some "37,17") = Except.ok (some [37, 17]) ∧
      ¬ List.Pairwise (· < ·) ([37, 17] : List Int) :=
  ⟨rfl, by decide⟩

/-- C3, amended: each comma-separated segment of a page-range string
expands to a strictly ascending run and an inverted range expands to the
empty sequence, segments being concatenated in the order written (so the
whole result is ascending only when the segments are written in
ascending order); `"42-37"` → `[]`, `"17,37-42"` → `[17,37,38,39,40,41,42]`,
and `"17"` → `[17]`. -/
theorem parse_page_numbers_spec :
    (∀ seg l, parseSegment seg = Except.ok l → List.Pairwise (· < ·) l) ∧
      parse_page_numbers (some "42-37") = Except.ok (some []) ∧
      parse_page_numbers (some "17,37-42") =
        Except.ok (some [17, 37, 38, 39, 40, 41, 42]) ∧
      parse_page_numbers (some "17") = Except.ok (some [17]) :=
  ⟨parseSegment_ascending, rfl, rfl, rfl⟩

/-- Witness for `parse_page_numbers_spec`: the segment `"37-42"`
expands to the ascending `[37, …, 42]`. -/
theorem parse_page_numbers_spec_witness :
    List.Pairwise (· < ·) ([37, 38, 39, 40, 41, 42] : List Int) :=
  parse_page_numbers_spec.1 "37-42".toList [37, 38, 39, 40, 41, 42] rfl

/-- C10: `parse_page_numbers(None)` returns `None` (no exception), a
string input can only produce a list (never the `None` sentinel), and
`Context._process` with `pages=None` processes every page of the
document. -/
theorem parse_page_numbers_none_sentinel :
    parse_page_numbers none = Except.ok none ∧
      (∀ (s : String) (r : Option (List Int)),
        parse_page_numbers (some s) = Except.ok r → r.isSome = true) ∧
      (∀ doc : List Nat, selectPages none doc = Except.ok doc) := by
  refine ⟨rfl, ?_, fun _ => rfl⟩
  intro s r h
  simp only [parse_page_numbers, Bind.bind, Except.bind] at h
  cases hm : (splitOnChar ',' s.toList).mapM parseSegment with
  | error e => rw [hm] at h; simp at h
  | ok ls =>
    rw [hm] at h
    simp only [pure, Except.pure, Except.ok.injEq] at h
    exact h ▸ rfl

/-- Witness for `parse_page_numbers_none_sentinel`: instantiated at
`"17"` (which parses to `some [17]`) and at the one-page document `[5]`. -/
theorem parse_page_numbers_none_sentinel_witness :
    (some [17] : Option (List Int)).isSome = true ∧
      selectPages none [5] = Except.ok [5] :=
  ⟨parse_page_numbers_none_sentinel.2.1 "17" (some [17]) rfl,
   parse_page_numbers_none_sentinel.2.2 [5]⟩

/-! ### Cancellation (`stop_threads`) -/

/-- C4, counterexample: `stop_threads` does NOT leave terminal slots
unchanged — with page 0 already in the `Success` state it overwrites the
slot with `True` (claimed). -/
theorem stop_threads_overwrites_terminal :
    stop_threads [0] (fun _ => Slot.success 5) 0 = Slot.claimed ∧
      Slot.claimed ≠ Slot.success 5 ∧
      (Slot.success 5).isTerminal = true :=
  ⟨rfl, by decide, rfl⟩

/-- C4, amended: `stop_threads` sets the slot of EVERY page of the run to
`Claimed` — transitioning every `Unclaimed` slot to `Claimed` so no worker
starts new pages, but also overwriting `Claimed` and terminal slots —
leaves indices outside the run untouched, and is idempotent: a second
call leaves the store exactly as the first call left it. -/
theorem stop_threads_spec :
    (∀ (pages : List Nat) (slots : Nat → Slot) (n : Nat), n ∈ pages →
        stop_threads pages slots n = Slot.claimed) ∧
      (∀ (pages : List Nat) (slots : Nat → Slot) (n : Nat), n ∉ pages →
        stop_threads pages slots n = slots n) ∧
      (∀ (pages : List Nat) (slots : Nat → Slot),
        stop_threads pages (stop_threads pages slots) = stop_threads pages slots) := by
  refine ⟨fun pages slots n h => by simp [stop_threads, h],
          fun pages slots n h => by simp [stop_threads, h],
          fun pages slots => ?_⟩
  funext m
  by_cases h : m ∈ pages <;> simp [stop_threads, h]

/-- Witness for `stop_threads_spec`: page 0 of the run `[0]` is claimed,
page 3 outside it keeps its state. -/
theorem stop_threads_spec_witness :
    stop_threads [0] (fun _ => Slot.unclaimed) 0 = Slot.claimed ∧
      stop_threads [0] (fun _ => Slot.noImage) 3 = Slot.noImage :=
  ⟨stop_threads_spec.1 [0] (fun _ => Slot.unclaimed) 0 (by decide),
   stop_threads_spec.2.1 [0] (fun _ => Slot.noImage) 3 (by decide)⟩

/-! ### Pipeline transition-system lemmas -/

/-- Inversion principle for `step`: every enabled event is a worker skip,
a worker claim, a worker recording a terminal outcome, a worker dying on
an interrupt, a worker exiting its loop, the main thread draining a
terminal page, the main thread aborting on a failed page, or the final
`sys.exit(1)`. -/
theorem step_cases (P : Params) (c c' : Cfg) (e : Ev) (h : step P c e = some c') :
    (∃ w p rest, e = Ev.wSkip w ∧ c.workers[w]? = some ⟨p :: rest, Phase.idle⟩ ∧
      c.slots p ≠ Slot.unclaimed ∧
      c' = { c with workers := c.workers.set w ⟨rest, Phase.idle⟩ }) ∨
    (∃ w p rest, e = Ev.wClaim w ∧ c.workers[w]? = some ⟨p :: rest, Phase.idle⟩ ∧
      c.slots p = Slot.unclaimed ∧
      c' = { c with slots := setS c.slots p Slot.claimed,
                    workers := c.workers.set w ⟨rest, Phase.processing p⟩ }) ∨
    (∃ w rem p v ph, e = Ev.wFinish w ∧
      c.workers[w]? = some ⟨rem, Phase.processing p⟩ ∧
      P.proc p ≠ ProcResult.interrupt ∧ v.isTerminal = true ∧
      ph ≠ Phase.done true ∧ (∀ q, ph ≠ Phase.processing q) ∧
      c' = { c with slots := setS c.slots p v, workers := c.workers.set w ⟨rem, ph⟩ }) ∨
    (∃ w rem p, e = Ev.wFinish w ∧
      c.workers[w]? = some ⟨rem, Phase.processing p⟩ ∧
      P.proc p = ProcResult.interrupt ∧
      c' = { c with workers := c.workers.set w ⟨rem, Phase.done false⟩ }) ∨
    (∃ w, e = Ev.wExit w ∧ c.workers[w]? = some ⟨[], Phase.idle⟩ ∧
      c' = { c with workers := c.workers.set w ⟨[], Phase.done true⟩ }) ∨
    (∃ p rest entry, e = Ev.aDrain ∧ c.aborted = false ∧ c.exited = false ∧
      c.asmRemaining = p :: rest ∧ (c.slots p).isTerminal = true ∧
      (∀ er b, c.slots p ≠ Slot.failed er b) ∧
      c' = { c with transcript := c.transcript ++ [(p, entry)], asmRemaining := rest }) ∨
    (∃ p rest er b, e = Ev.aDrain ∧ c.aborted = false ∧ c.exited = false ∧
      c.asmRemaining = p :: rest ∧ c.slots p = Slot.failed er b ∧
      c' = { c with slots := stop_threads P.pages c.slots,
                    aborted := true, debug := true }) ∨
    (e = Ev.aExitFail ∧ c.aborted = true ∧ c.exited = false ∧
      (c.workers.all fun w => w.phase.isDone) = true ∧
      c' = { c with exited := true }) := by
  cases e with
  | wSkip w =>
    refine Or.inl ?_
    simp only [step] at h
    split at h
    · rename_i p rest heq
      split at h
      · cases h
      · rename_i hs
        cases h
        exact ⟨w, p, rest, rfl, heq, hs, rfl⟩
    · cases h
  | wClaim w =>
    refine Or.inr (Or.inl ?_)
    simp only [step] at h
    split at h
    · rename_i p rest heq
      split at h
      · rename_i hs
        cases h
        exact ⟨w, p, rest, rfl, heq, hs, rfl⟩
      · cases h
    · cases h
  | wFinish w =>
    simp only [step] at h
    split at h
    · rename_i rem p heq
      split at h
      · rename_i f hp
        cases h
        exact Or.inr (Or.inr (Or.inl ⟨w, rem, p, Slot.success f, Phase.idle, rfl, heq,
          by simp [hp], rfl, by simp, fun q => by simp, rfl⟩))
      · rename_i hp
        cases h
        exact Or.inr (Or.inr (Or.inl ⟨w, rem, p, Slot.noImage, Phase.idle, rfl, heq,
          by simp [hp], rfl, by simp, fun q => by simp, rfl⟩))
      · rename_i hp
        cases h
        exact Or.inr (Or.inr (Or.inr (Or.inl ⟨w, rem, p, rfl, heq, hp, rfl⟩)))
      · rename_i code byUser hp
        split at h
        · cases h
          exact Or.inr (Or.inr (Or.inl ⟨w, rem, p, Slot.noImage, Phase.idle, rfl, heq,
            by simp [hp], rfl, by simp, fun q => by simp, rfl⟩))
        · cases h
          exact Or.inr (Or.inr (Or.inl ⟨w, rem, p, Slot.failed code byUser,
            Phase.done false, rfl, heq, by simp [hp], rfl, by simp,
            fun q => by simp, rfl⟩))
    · cases h
  | wExit w =>
    refine Or.inr (Or.inr (Or.inr (Or.inr (Or.inl ?_))))
    simp only [step] at h
    split at h
    · rename_i heq
      cases h
      exact ⟨w, rfl, heq, rfl⟩
    · cases h
  | aDrain =>
    simp only [step] at h
    split at h
    · cases h
    · rename_i hae
      simp only [Bool.or_eq_true, not_or, Bool.not_eq_true] at hae
      split at h
      · cases h
      · rename_i p rest hrem
        split at h
        · cases h
        · cases h
        · rename_i hs
          cases h
          exact Or.inr (Or.inr (Or.inr (Or.inr (Or.inr (Or.inl ⟨p, rest, none, rfl,
            hae.1, hae.2, hrem, by simp [hs, Slot.isTerminal], by simp [hs], rfl⟩)))))
        · rename_i f hs
          cases h
          exact Or.inr (Or.inr (Or.inr (Or.inr (Or.inr (Or.inl ⟨p, rest, some f, rfl,
            hae.1, hae.2, hrem, by simp [hs, Slot.isTerminal], by simp [hs], rfl⟩)))))
        · rename_i er b hs
          cases h
          exact Or.inr (Or.inr (Or.inr (Or.inr (Or.inr (Or.inr (Or.inl ⟨p, rest, er, b,
            rfl, hae.1, hae.2, hrem, hs, rfl⟩))))))
  | aExitFail =>
    refine Or.inr (Or.inr (Or.inr (Or.inr (Or.inr (Or.inr (Or.inr ?_))))))
    simp only [step] at h
    split at h
    · rename_i hc
      simp only [Bool.and_eq_true, Bool.not_eq_true'] at hc
      cases h
      exact ⟨rfl, hc.1.1, hc.1.2, hc.2, rfl⟩
    · cases h

theorem setS_self (f : Nat → Slot) (n : Nat) (v : Slot) : setS f n v n = v := by
  simp [setS]

theorem setS_other (f : Nat → Slot) (n : Nat) (v : Slot) (m : Nat) (h : m ≠ n) :
    setS f n v m = f m := by
  simp [setS, h]

theorem isTerminal_ne_unclaimed {v : Slot} (h : v.isTerminal = true) :
    v ≠ Slot.unclaimed := by
  cases v <;> simp_all [Slot.isTerminal]

theorem isTerminal_ne_claimed {v : Slot} (h : v.isTerminal = true) :
    v ≠ Slot.claimed := by
  cases v <;> simp_all [Slot.isTerminal]

/-- `List.countP` across a pointwise update, in addition form. -/
theorem countP_set_eq {α : Type} (p : α → Bool) (l : List α) (n : Nat) (a : α)
    (h : n < l.length) :
    (l.set n a).countP p + (if p l[n] then 1 else 0) =
      l.countP p + (if p a then 1 else 0) := by
  have h1 := List.countP_set p l n a h
  have h2 : (if p l[n] = true then 1 else 0) ≤ l.countP p := by
    split
    · exact List.countP_pos_iff.mpr ⟨l[n], List.getElem_mem h, by assumption⟩
    · omega
  omega

theorem countPair_nil (i : Nat) : countPair [] i = 0 := rfl

theorem countPair_single (w p i : Nat) :
    countPair [(w, p)] i = if p = i then 1 else 0 := by
  simp only [countPair, List.countP_cons, List.countP_nil]
  by_cases h : p = i <;> simp [h]

theorem countPair_append (l₁ l₂ : List (Nat × Nat)) (i : Nat) :
    countPair (l₁ ++ l₂) i = countPair l₁ i + countPair l₂ i := by
  simp [countPair, List.countP_append]

/-- `procs`-style count across a single worker-list update. -/
theorem procs_list_set (ws : List Worker) (w : Nat) (ow nw : Worker)
    (heq : ws[w]? = some ow) (i : Nat) :
    (ws.set w nw).countP (fun x => x.phase = Phase.processing i) +
        (if ow.phase = Phase.processing i then 1 else 0) =
      ws.countP (fun x => x.phase = Phase.processing i) +
        (if nw.phase = Phase.processing i then 1 else 0) := by
  obtain ⟨hlt, hval⟩ := List.getElem?_eq_some.mp heq
  have := countP_set_eq (fun x : Worker => decide (x.phase = Phase.processing i))
    ws w nw hlt
  simp only [hval] at this ⊢
  simpa [decide_eq_true_eq] using this

/-! #### Per-step facts -/

/-- No step ever returns a slot to `Unclaimed`. -/
theorem step_slot_stable {P : Params} {c c' : Cfg} {e : Ev}
    (h : step P c e = some c') (i : Nat)
    (hi : c.slots i ≠ Slot.unclaimed) : c'.slots i ≠ Slot.unclaimed := by
  rcases step_cases P c c' e h with
    ⟨w, p, rest, he, heq, hs, hc⟩ | ⟨w, p, rest, he, heq, hs, hc⟩ |
    ⟨w, rem, p, v, ph, he, heq, hp, hv, hph1, hph2, hc⟩ |
    ⟨w, rem, p, he, heq, hp, hc⟩ | ⟨w, he, heq, hc⟩ |
    ⟨p, rest, entry, he, hab, hex, hrem, hterm, hnf, hc⟩ |
    ⟨p, rest, er, b, he, hab, hex, hrem, hs, hc⟩ |
    ⟨he, hab, hex, hall, hc⟩ <;> subst hc
  · exact hi
  · by_cases hip : i = p
    · subst hip; simp [setS_self]
    · simpa [setS_other _ _ _ _ hip] using hi
  · by_cases hip : i = p
    · subst hip; simpa [setS_self] using isTerminal_ne_unclaimed hv
    · simpa [setS_other _ _ _ _ hip] using hi
  · exact hi
  · exact hi
  · exact hi
  · show stop_threads P.pages c.slots i ≠ Slot.unclaimed
    unfold stop_threads
    split <;> simp_all
  · exact hi

/-- Per-step bound on claims: a claim consumes the slot's unclaimed
status, which no step restores. -/
theorem claim_step_bound {P : Params} {c c' : Cfg} {e : Ev}
    (h : step P c e = some c') (i : Nat) :
    countPair (claimRec c e) i + uBound c' i ≤ uBound c i := by
  have hstab := step_slot_stable h i
  rcases step_cases P c c' e h with
    ⟨w, p, rest, he, heq, hs, hc⟩ | ⟨w, p, rest, he, heq, hs, hc⟩ |
    ⟨w, rem, p, v, ph, he, heq, hp, hv, hph1, hph2, hc⟩ |
    ⟨w, rem, p, he, heq, hp, hc⟩ | ⟨w, he, heq, hc⟩ |
    ⟨p, rest, entry, he, hab, hex, hrem, hterm, hnf, hc⟩ |
    ⟨p, rest, er, b, he, hab, hex, hrem, hs, hc⟩ |
    ⟨he, hab, hex, hall, hc⟩ <;> subst he
  · -- skip: no claim, slots unchanged
    subst hc; simp [claimRec, countPair_nil, uBound]
  · -- claim: the slot goes unclaimed → claimed
    subst hc
    simp only [claimRec, heq, hs, countPair_single, uBound]
    by_cases hip : p = i
    · subst hip; simp [setS_self, hs]
    · have : i ≠ p := fun hh => hip hh.symm
      simp [hip, setS_other _ _ _ _ this]
  · -- finish (record): no claim; unclaimed status can only disappear
    subst hc
    simp only [claimRec, countPair_nil, uBound, Nat.zero_add]
    by_cases hip : i = p
    · subst hip
      simp only [setS_self, isTerminal_ne_unclaimed hv, if_false]
      split <;> omega
    · simp [setS_other _ _ _ _ hip]
  · subst hc; simp [claimRec, countPair_nil, uBound]
  · subst hc; simp [claimRec, countPair_nil, uBound]
  · subst hc; simp [claimRec, countPair_nil, uBound]
  · -- abort: stop_threads only maps unclaimed to claimed
    subst hc
    simp only [claimRec, countPair_nil, uBound, Nat.zero_add]
    show (if stop_threads P.pages c.slots i = Slot.unclaimed then 1 else 0) ≤ _
    unfold stop_threads
    split <;> split <;> simp_all
  · subst hc; simp [claimRec, countPair_nil, uBound]

theorem procs_list_set_keep (ws : List Worker) (w : Nat) (ow nw : Worker)
    (heq : ws[w]? = some ow) (i : Nat)
    (ho : ¬ ow.phase = Phase.processing i) (hn : ¬ nw.phase = Phase.processing i) :
    (ws.set w nw).countP (fun x => x.phase = Phase.processing i) =
      ws.countP (fun x => x.phase = Phase.processing i) := by
  have h := procs_list_set ws w ow nw heq i
  rw [if_neg ho, if_neg hn] at h
  omega

theorem procs_list_set_enter (ws : List Worker) (w : Nat) (ow nw : Worker)
    (heq : ws[w]? = some ow) (i : Nat)
    (ho : ¬ ow.phase = Phase.processing i) (hn : nw.phase = Phase.processing i) :
    (ws.set w nw).countP (fun x => x.phase = Phase.processing i) =
      ws.countP (fun x => x.phase = Phase.processing i) + 1 := by
  have h := procs_list_set ws w ow nw heq i
  rw [if_neg ho, if_pos hn] at h
  omega

theorem procs_list_set_leave (ws : List Worker) (w : Nat) (ow nw : Worker)
    (heq : ws[w]? = some ow) (i : Nat)
    (ho : ow.phase = Phase.processing i) (hn : ¬ nw.phase = Phase.processing i) :
    (ws.set w nw).countP (fun x => x.phase = Phase.processing i) + 1 =
      ws.countP (fun x => x.phase = Phase.processing i) := by
  have h := procs_list_set ws w ow nw heq i
  rw [if_pos ho, if_neg hn] at h
  omega

/-- Per-step bound on terminal recordings: a recording consumes one
worker-processing token; claims are the only producers. -/
theorem rec_step_bound {P : Params} {c c' : Cfg} {e : Ev}
    (h : step P c e = some c') (i : Nat) :
    countPair (recRec P c e) i + vBound c' i ≤ vBound c i := by
  rcases step_cases P c c' e h with
    ⟨w, p, rest, he, heq, hs, hc⟩ | ⟨w, p, rest, he, heq, hs, hc⟩ |
    ⟨w, rem, p, v, ph, he, heq, hp, hv, hph1, hph2, hc⟩ |
    ⟨w, rem, p, he, heq, hp, hc⟩ | ⟨w, he, heq, hc⟩ |
    ⟨p, rest, entry, he, hab, hex, hrem, hterm, hnf, hc⟩ |
    ⟨p, rest, er, b, he, hab, hex, hrem, hs, hc⟩ |
    ⟨he, hab, hex, hall, hc⟩ <;> subst he <;> subst hc
  · -- skip
    have hpr := procs_list_set_keep c.workers w _ ⟨rest, Phase.idle⟩ heq i
      (by simp) (by simp)
    simp only [recRec, countPair_nil, vBound, uBound, procs]
    omega
  · -- claim
    simp only [recRec, countPair_nil, vBound, uBound, procs]
    by_cases hip : i = p
    · subst hip
      have hpr := procs_list_set_enter c.workers w _ ⟨rest, Phase.processing i⟩ heq i
        (by simp) rfl
      simp only [setS_self]
      rw [if_neg (by decide : ¬(Slot.claimed = Slot.unclaimed)), if_pos hs]
      omega
    · have hpr := procs_list_set_keep c.workers w _ ⟨rest, Phase.processing p⟩ heq i
        (by simp) (by simp [Phase.processing.injEq]; exact fun hh => hip hh.symm)
      simp only [setS_other _ _ _ _ hip]
      omega
  · -- finish, recording a terminal value
    have hrr : recRec P c (Ev.wFinish w) = [(w, p)] := by
      simp only [recRec, heq]
    rw [hrr, countPair_single]
    simp only [vBound, uBound, procs]
    by_cases hip : i = p
    · subst hip
      have hpr := procs_list_set_leave c.workers w _ ⟨rem, ph⟩ heq i rfl (hph2 i)
      simp only [eq_self_iff_true, if_true, setS_self]
      rw [if_neg (isTerminal_ne_unclaimed hv)]
      omega
    · have hpr := procs_list_set_keep c.workers w _ ⟨rem, ph⟩ heq i
        (by simp [Phase.processing.injEq]; exact fun hh => hip hh.symm) (hph2 i)
      rw [if_neg (fun hh => hip hh.symm)]
      simp only [setS_other _ _ _ _ hip]
      omega
  · -- finish on interrupt: nothing recorded, one processing token dies
    have hrr : recRec P c (Ev.wFinish w) = [] := by
      simp [recRec, heq, hp]
    rw [hrr]
    simp only [countPair_nil, vBound, uBound, procs]
    by_cases hip : i = p
    · subst hip
      have hpr := procs_list_set_leave c.workers w _ ⟨rem, Phase.done false⟩ heq i
        rfl (by simp)
      omega
    · have hpr := procs_list_set_keep c.workers w _ ⟨rem, Phase.done false⟩ heq i
        (by simp [Phase.processing.injEq]; exact fun hh => hip hh.symm) (by simp)
      omega
  · -- worker exit
    have hpr := procs_list_set_keep c.workers w _ ⟨[], Phase.done true⟩ heq i
      (by simp) (by simp)
    simp only [recRec, countPair_nil, vBound, uBound, procs]
    omega
  · -- drain of a terminal page
    simp [recRec, countPair_nil, vBound, uBound, procs]
  · -- drain of a failed page: stop_threads never creates unclaimed slots
    simp only [recRec, countPair_nil, vBound, uBound, procs, Nat.zero_add]
    have hmono : (if stop_threads P.pages c.slots i = Slot.unclaimed then 1 else 0) ≤
        (if c.slots i = Slot.unclaimed then 1 else 0) := by
      unfold stop_threads
      split <;> split <;> simp_all
    omega
  · -- sys.exit
    simp [recRec, countPair_nil, vBound, uBound, procs]

/-- Per-step: recordings never outrun claims plus live processing tokens. -/
theorem rec_le_claim_step {P : Params} {c c' : Cfg} {e : Ev}
    (h : step P c e = some c') (i : Nat) :
    countPair (recRec P c e) i + procs c' i ≤
      countPair (claimRec c e) i + procs c i := by
  rcases step_cases P c c' e h with
    ⟨w, p, rest, he, heq, hs, hc⟩ | ⟨w, p, rest, he, heq, hs, hc⟩ |
    ⟨w, rem, p, v, ph, he, heq, hp, hv, hph1, hph2, hc⟩ |
    ⟨w, rem, p, he, heq, hp, hc⟩ | ⟨w, he, heq, hc⟩ |
    ⟨p, rest, entry, he, hab, hex, hrem, hterm, hnf, hc⟩ |
    ⟨p, rest, er, b, he, hab, hex, hrem, hs, hc⟩ |
    ⟨he, hab, hex, hall, hc⟩ <;> subst he <;> subst hc
  · -- skip
    have hpr := procs_list_set_keep c.workers w _ ⟨rest, Phase.idle⟩ heq i
      (by simp) (by simp)
    simp only [recRec, claimRec, heq, countPair_nil, procs]
    omega
  · -- claim
    simp only [recRec, claimRec, heq, hs, countPair_nil, countPair_single, procs]
    by_cases hip : i = p
    · subst hip
      have hpr := procs_list_set_enter c.workers w _ ⟨rest, Phase.processing i⟩ heq i
        (by simp) rfl
      simp only [eq_self_iff_true, if_true]
      omega
    · have hpr := procs_list_set_keep c.workers w _ ⟨rest, Phase.processing p⟩ heq i
        (by simp) (by simp [Phase.processing.injEq]; exact fun hh => hip hh.symm)
      rw [if_neg (fun hh => hip hh.symm)]
      omega
  · -- finish recording
    have hrr : recRec P c (Ev.wFinish w) = [(w, p)] := by
      simp only [recRec, heq]
    rw [hrr, countPair_single]
    simp only [claimRec, countPair_nil, procs]
    by_cases hip : i = p
    · subst hip
      have hpr := procs_list_set_leave c.workers w _ ⟨rem, ph⟩ heq i rfl (hph2 i)
      simp only [eq_self_iff_true, if_true]
      omega
    · have hpr := procs_list_set_keep c.workers w _ ⟨rem, ph⟩ heq i
        (by simp [Phase.processing.injEq]; exact fun hh => hip hh.symm) (hph2 i)
      rw [if_neg (fun hh => hip hh.symm)]
      omega
  · -- interrupt
    have hrr : recRec P c (Ev.wFinish w) = [] := by simp [recRec, heq, hp]
    rw [hrr]
    simp only [claimRec, countPair_nil, procs]
    by_cases hip : i = p
    · subst hip
      have hpr := procs_list_set_leave c.workers w _ ⟨rem, Phase.done false⟩ heq i
        rfl (by simp)
      omega
    · have hpr := procs_list_set_keep c.workers w _ ⟨rem, Phase.done false⟩ heq i
        (by simp [Phase.processing.injEq]; exact fun hh => hip hh.symm) (by simp)
      omega
  · -- exit
    have hpr := procs_list_set_keep c.workers w _ ⟨[], Phase.done true⟩ heq i
      (by simp) (by simp)
    simp only [recRec, claimRec, heq, countPair_nil, procs]
    omega
  · simp [recRec, claimRec, countPair_nil, procs]
  · simp [recRec, claimRec, countPair_nil, procs]
  · simp [recRec, claimRec, countPair_nil, procs]

/-- Per-step: a slot can only become terminal through a recording. -/
theorem terminal_origin_step {P : Params} {c c' : Cfg} {e : Ev}
    (h : step P c e = some c') (i : Nat)
    (ht : (c'.slots i).isTerminal = true) :
    (c.slots i).isTerminal = true ∨ 0 < countPair (recRec P c e) i := by
  rcases step_cases P c c' e h with
    ⟨w, p, rest, he, heq, hs, hc⟩ | ⟨w, p, rest, he, heq, hs, hc⟩ |
    ⟨w, rem, p, v, ph, he, heq, hp, hv, hph1, hph2, hc⟩ |
    ⟨w, rem, p, he, heq, hp, hc⟩ | ⟨w, he, heq, hc⟩ |
    ⟨p, rest, entry, he, hab, hex, hrem, hterm, hnf, hc⟩ |
    ⟨p, rest, er, b, he, hab, hex, hrem, hs, hc⟩ |
    ⟨he, hab, hex, hall, hc⟩ <;> subst he <;> subst hc <;> dsimp only at ht
  · exact Or.inl ht
  · -- claim writes `claimed`, which is not terminal
    by_cases hip : i = p
    · subst hip
      rw [setS_self] at ht
      simp [Slot.isTerminal] at ht
    · rw [setS_other _ _ _ _ hip] at ht
      exact Or.inl ht
  · -- recording
    by_cases hip : i = p
    · subst hip
      refine Or.inr ?_
      have hrr : recRec P c (Ev.wFinish w) = [(w, i)] := by
        simp only [recRec, heq]
      rw [hrr, countPair_single, if_pos rfl]
      omega
    · rw [setS_other _ _ _ _ hip] at ht
      exact Or.inl ht
  · exact Or.inl ht
  · exact Or.inl ht
  · exact Or.inl ht
  · -- stop_threads writes `claimed` (not terminal) or keeps the value
    refine Or.inl ?_
    revert ht
    show Slot.isTerminal (stop_threads P.pages c.slots i) = true → _
    unfold stop_threads
    split
    · intro hh; simp [Slot.isTerminal] at hh
    · exact id
  · exact Or.inl ht

/-! #### Trace-level facts -/

/-- Unfolding `claimsAlong` across one valid step. -/
theorem claimsAlong_cons {P : Params} {c c1 : Cfg} {e : Ev} (tr : List Ev)
    (hst : step P c e = some c1) :
    claimsAlong P c (e :: tr) = claimRec c e ++ claimsAlong P c1 tr := by
  simp [claimsAlong, hst]

/-- Unfolding `recsAlong` across one valid step. -/
theorem recsAlong_cons {P : Params} {c c1 : Cfg} {e : Ev} (tr : List Ev)
    (hst : step P c e = some c1) :
    recsAlong P c (e :: tr) = recRec P c e ++ recsAlong P c1 tr := by
  simp [recsAlong, hst]

/-- Along any valid schedule, page `i` is claimed at most once from a
configuration where it is unclaimed, and never when it is not. -/
theorem claims_bound_run (P : Params) (tr : List Ev) :
    ∀ (c c' : Cfg), run P c tr = some c' → ∀ i : Nat,
      countPair (claimsAlong P c tr) i ≤ uBound c i := by
  induction tr with
  | nil => intro c c' h i; simp [claimsAlong, countPair_nil]
  | cons e tr ih =>
    intro c c' h i
    simp only [run] at h
    cases hst : step P c e with
    | none => rw [hst] at h; cases h
    | some c1 =>
      rw [hst] at h
      rw [claimsAlong_cons tr hst, countPair_append]
      have h1 := claim_step_bound hst i
      have h2 := ih c1 c' h i
      omega

/-- Along any valid schedule, at most `vBound` terminal recordings can
happen for page `i`. -/
theorem recs_bound_run (P : Params) (tr : List Ev) :
    ∀ (c c' : Cfg), run P c tr = some c' → ∀ i : Nat,
      countPair (recsAlong P c tr) i ≤ vBound c i := by
  induction tr with
  | nil => intro c c' h i; simp [recsAlong, countPair_nil]
  | cons e tr ih =>
    intro c c' h i
    simp only [run] at h
    cases hst : step P c e with
    | none => rw [hst] at h; cases h
    | some c1 =>
      rw [hst] at h
      rw [recsAlong_cons tr hst, countPair_append]
      have h1 := rec_step_bound hst i
      have h2 := ih c1 c' h i
      omega

/-- Along any valid schedule, recordings for page `i` never outrun
claims plus the processing tokens alive at the start. -/
theorem recs_le_claims_run (P : Params) (tr : List Ev) :
    ∀ (c c' : Cfg), run P c tr = some c' → ∀ i : Nat,
      countPair (recsAlong P c tr) i + procs c' i ≤
        countPair (claimsAlong P c tr) i + procs c i := by
  induction tr with
  | nil => intro c c' h i; cases h; simp [recsAlong, claimsAlong, countPair_nil]
  | cons e tr ih =>
    intro c c' h i
    simp only [run] at h
    cases hst : step P c e with
    | none => rw [hst] at h; cases h
    | some c1 =>
      rw [hst] at h
      rw [recsAlong_cons tr hst, claimsAlong_cons tr hst, countPair_append,
        countPair_append]
      have h1 := rec_le_claim_step hst i
      have h2 := ih c1 c' h i
      omega

/-- A slot that is terminal at the end of a valid schedule was terminal
at the start or a recording happened along the way. -/
theorem terminal_origin_run (P : Params) (tr : List Ev) :
    ∀ (c c' : Cfg), run P c tr = some c' → ∀ i : Nat,
      (c'.slots i).isTerminal = true →
      (c.slots i).isTerminal = true ∨ 0 < countPair (recsAlong P c tr) i := by
  induction tr with
  | nil => intro c c' h i ht; cases h; exact Or.inl ht
  | cons e tr ih =>
    intro c c' h i ht
    simp only [run] at h
    cases hst : step P c e with
    | none => rw [hst] at h; cases h
    | some c1 =>
      rw [hst] at h
      rw [recsAlong_cons tr hst, countPair_append]
      rcases ih c1 c' h i ht with h1 | h1
      · rcases terminal_origin_step hst i h1 with h2 | h2
        · exact Or.inl h2
        · exact Or.inr (by omega)
      · exact Or.inr (by omega)

theorem getElem?_set_ne {α : Type} {l : List α} {w k : Nat} (a : α) (hk : k ≠ w) :
    (l.set w a)[k]? = l[k]? := by
  rw [List.getElem?_set, if_neg (fun hh => hk hh.symm)]

theorem getElem?_set_self {α : Type} {l : List α} {w : Nat} (a : α)
    (hlt : w < l.length) : (l.set w a)[w]? = some a := by
  rw [List.getElem?_set, if_pos rfl, if_pos hlt]

/-- The pipeline invariant holds initially. -/
theorem inv_init (P : Params) : Inv P (initCfg P) := by
  refine ⟨?_, ?_, ?_⟩
  · intro w hw hph
    have := List.eq_of_mem_replicate hw
    subst this
    exact absurd hph (by simp)
  · intro w hw q hq hnr
    have := List.eq_of_mem_replicate hw
    subst this
    exact absurd hq hnr
  · intro i hcl
    exact absurd hcl (by simp [initCfg])

/-- The pipeline invariant is preserved by every step. -/
theorem inv_step {P : Params} {c c' : Cfg} {e : Ev}
    (h : step P c e = some c') (hI : Inv P c) : Inv P c' := by
  obtain ⟨hD, hG, hH⟩ := hI
  have hstab := step_slot_stable h
  rcases step_cases P c c' e h with
    ⟨w, p, rest, he, heq, hs, hc⟩ | ⟨w, p, rest, he, heq, hs, hc⟩ |
    ⟨w, rem, p, v, ph, he, heq, hp, hv, hph1, hph2, hc⟩ |
    ⟨w, rem, p, he, heq, hp, hc⟩ | ⟨w, he, heq, hc⟩ |
    ⟨p, rest, entry, he, hab, hex, hrem, hterm, hnf, hc⟩ |
    ⟨p, rest, er, b, he, hab, hex, hrem, hs, hc⟩ |
    ⟨he, hab, hex, hall, hc⟩ <;> subst he
  · -- skip
    have hwlt : w < c.workers.length := (List.getElem?_eq_some.mp heq).1
    subst hc
    refine ⟨?_, ?_, ?_⟩
    · intro w' hw' hph
      rcases List.mem_or_eq_of_mem_set hw' with hold | hnew
      · exact hD w' hold hph
      · subst hnew; exact absurd hph (by simp)
    · intro w' hw' q hq hnr
      rcases List.mem_or_eq_of_mem_set hw' with hold | hnew
      · exact hstab q (hG w' hold q hq hnr)
      · subst hnew
        by_cases hqp : q = p
        · subst hqp; exact hstab q hs
        · refine hstab q (hG _ (List.getElem?_mem heq) q hq ?_)
          intro hmem
          rcases List.mem_cons.mp hmem with hh | hh
          · exact hqp hh
          · exact hnr hh
    · intro i hcl
      rcases hH i hcl with hA | hPr | ⟨k, wk, hk, hdf⟩
      · exact Or.inl hA
      · refine Or.inr (Or.inl ?_)
        show 0 < (c.workers.set w ⟨rest, Phase.idle⟩).countP _
        rw [procs_list_set_keep c.workers w _ ⟨rest, Phase.idle⟩ heq i (by simp) (by simp)]
        exact hPr
      · by_cases hkw : k = w
        · subst hkw
          rw [heq] at hk
          injection hk with hk
          subst hk
          exact absurd hdf (by simp)
        · exact Or.inr (Or.inr ⟨k, wk, by rw [getElem?_set_ne _ hkw]; exact hk, hdf⟩)
  · -- claim
    have hwlt : w < c.workers.length := (List.getElem?_eq_some.mp heq).1
    subst hc
    refine ⟨?_, ?_, ?_⟩
    · intro w' hw' hph
      rcases List.mem_or_eq_of_mem_set hw' with hold | hnew
      · exact hD w' hold hph
      · subst hnew; exact absurd hph (by simp)
    · intro w' hw' q hq hnr
      rcases List.mem_or_eq_of_mem_set hw' with hold | hnew
      · exact hstab q (hG w' hold q hq hnr)
      · subst hnew
        by_cases hqp : q = p
        · subst hqp
          show setS c.slots q Slot.claimed q ≠ Slot.unclaimed
          rw [setS_self]
          simp
        · refine hstab q (hG _ (List.getElem?_mem heq) q hq ?_)
          intro hmem
          rcases List.mem_cons.mp hmem with hh | hh
          · exact hqp hh
          · exact hnr hh
    · intro i hcl
      by_cases hip : i = p
      · subst hip
        refine Or.inr (Or.inl ?_)
        show 0 < (c.workers.set w ⟨rest, Phase.processing i⟩).countP _
        refine List.countP_pos_iff.mpr ⟨⟨rest, Phase.processing i⟩, ?_, by simp⟩
        exact List.mem_set c.workers w hwlt _
      · have hcl' : c.slots i = Slot.claimed := by
          have : setS c.slots p Slot.claimed i = Slot.claimed := hcl
          rwa [setS_other _ _ _ _ hip] at this
        rcases hH i hcl' with hA | hPr | ⟨k, wk, hk, hdf⟩
        · exact Or.inl hA
        · refine Or.inr (Or.inl ?_)
          show 0 < (c.workers.set w ⟨rest, Phase.processing p⟩).countP _
          rw [procs_list_set_keep c.workers w _ ⟨rest, Phase.processing p⟩ heq i
            (by simp) (by simp [Phase.processing.injEq]; exact fun hh => hip hh.symm)]
          exact hPr
        · by_cases hkw : k = w
          · subst hkw
            rw [heq] at hk
            injection hk with hk
            subst hk
            exact absurd hdf (by simp)
          · exact Or.inr (Or.inr ⟨k, wk, by rw [getElem?_set_ne _ hkw]; exact hk, hdf⟩)
  · -- finish, recording
    have hwlt : w < c.workers.length := (List.getElem?_eq_some.mp heq).1
    subst hc
    refine ⟨?_, ?_, ?_⟩
    · intro w' hw' hph
      rcases List.mem_or_eq_of_mem_set hw' with hold | hnew
      · exact hD w' hold hph
      · subst hnew; exact absurd hph (by simpa using hph1)
    · intro w' hw' q hq hnr
      rcases List.mem_or_eq_of_mem_set hw' with hold | hnew
      · exact hstab q (hG w' hold q hq hnr)
      · subst hnew
        exact hstab q (hG _ (List.getElem?_mem heq) q hq hnr)
    · intro i hcl
      by_cases hip : i = p
      · subst hip
        have : setS c.slots i v i = Slot.claimed := hcl
        rw [setS_self] at this
        exact absurd this (isTerminal_ne_claimed hv)
      · have hcl' : c.slots i = Slot.claimed := by
          have : setS c.slots p v i = Slot.claimed := hcl
          rwa [setS_other _ _ _ _ hip] at this
        rcases hH i hcl' with hA | hPr | ⟨k, wk, hk, hdf⟩
        · exact Or.inl hA
        · refine Or.inr (Or.inl ?_)
          show 0 < (c.workers.set w ⟨rem, ph⟩).countP _
          rw [procs_list_set_keep c.workers w _ ⟨rem, ph⟩ heq i
            (by simp [Phase.processing.injEq]; exact fun hh => hip hh.symm) (hph2 i)]
          exact hPr
        · by_cases hkw : k = w
          · subst hkw
            rw [heq] at hk
            injection hk with hk
            subst hk
            exact absurd hdf (by simp)
          · exact Or.inr (Or.inr ⟨k, wk, by rw [getElem?_set_ne _ hkw]; exact hk, hdf⟩)
  · -- finish on interrupt
    have hwlt : w < c.workers.length := (List.getElem?_eq_some.mp heq).1
    subst hc
    refine ⟨?_, ?_, ?_⟩
    · intro w' hw' hph
      rcases List.mem_or_eq_of_mem_set hw' with hold | hnew
      · exact hD w' hold hph
      · subst hnew; exact absurd hph (by simp)
    · intro w' hw' q hq hnr
      rcases List.mem_or_eq_of_mem_set hw' with hold | hnew
      · exact hstab q (hG w' hold q hq hnr)
      · subst hnew
        exact hstab q (hG _ (List.getElem?_mem heq) q hq hnr)
    · intro i hcl
      exact Or.inr (Or.inr ⟨w, ⟨rem, Phase.done false⟩,
        getElem?_set_self _ hwlt, rfl⟩)
  · -- worker exit
    have hwlt : w < c.workers.length := (List.getElem?_eq_some.mp heq).1
    subst hc
    refine ⟨?_, ?_, ?_⟩
    · intro w' hw' hph
      rcases List.mem_or_eq_of_mem_set hw' with hold | hnew
      · exact hD w' hold hph
      · subst hnew; rfl
    · intro w' hw' q hq hnr
      rcases List.mem_or_eq_of_mem_set hw' with hold | hnew
      · exact hstab q (hG w' hold q hq hnr)
      · subst hnew
        exact hstab q (hG _ (List.getElem?_mem heq) q hq hnr)
    · intro i hcl
      rcases hH i hcl with hA | hPr | ⟨k, wk, hk, hdf⟩
      · exact Or.inl hA
      · refine Or.inr (Or.inl ?_)
        show 0 < (c.workers.set w ⟨[], Phase.done true⟩).countP _
        rw [procs_list_set_keep c.workers w _ ⟨[], Phase.done true⟩ heq i
          (by simp) (by simp)]
        exact hPr
      · by_cases hkw : k = w
        · subst hkw
          rw [heq] at hk
          injection hk with hk
          subst hk
          exact absurd hdf (by simp)
        · exact Or.inr (Or.inr ⟨k, wk, by rw [getElem?_set_ne _ hkw]; exact hk, hdf⟩)
  · -- drain of a terminal page
    subst hc
    exact ⟨hD, fun w' hw' q hq hnr => hG w' hw' q hq hnr, fun i hcl => hH i hcl⟩
  · -- drain of a failed page: cancellation
    subst hc
    refine ⟨hD, ?_, fun i hcl => Or.inl rfl⟩
    intro w' hw' q hq hnr
    exact hstab q (hG w' hw' q hq hnr)
  · -- sys.exit
    subst hc
    exact ⟨hD, fun w' hw' q hq hnr => hG w' hw' q hq hnr, fun i hcl => hH i hcl⟩

/-- The pipeline invariant along any valid schedule. -/
theorem inv_run (P : Params) (tr : List Ev) :
    ∀ (c c' : Cfg), run P c tr = some c' → Inv P c → Inv P c' := by
  induction tr with
  | nil => intro c c' h hI; cases h; exact hI
  | cons e tr ih =>
    intro c c' h hI
    simp only [run] at h
    cases hst : step P c e with
    | none => rw [hst] at h; cases h
    | some c1 =>
      rw [hst] at h
      exact ih c1 c' h (inv_step hst hI)

/-- The number of worker threads never changes. -/
theorem workers_length_step {P : Params} {c c' : Cfg} {e : Ev}
    (h : step P c e = some c') : c'.workers.length = c.workers.length := by
  rcases step_cases P c c' e h with
    ⟨w, p, rest, he, heq, hs, hc⟩ | ⟨w, p, rest, he, heq, hs, hc⟩ |
    ⟨w, rem, p, v, ph, he, heq, hp, hv, hph1, hph2, hc⟩ |
    ⟨w, rem, p, he, heq, hp, hc⟩ | ⟨w, he, heq, hc⟩ |
    ⟨p, rest, entry, he, hab, hex, hrem, hterm, hnf, hc⟩ |
    ⟨p, rest, er, b, he, hab, hex, hrem, hs, hc⟩ |
    ⟨he, hab, hex, hall, hc⟩ <;> subst hc <;> simp [List.length_set]

theorem workers_length_run (P : Params) (tr : List Ev) :
    ∀ (c c' : Cfg), run P c tr = some c' →
      c'.workers.length = c.workers.length := by
  induction tr with
  | nil => intro c c' h; cases h; rfl
  | cons e tr ih =>
    intro c c' h
    simp only [run] at h
    cases hst : step P c e with
    | none => rw [hst] at h; cases h
    | some c1 =>
      rw [hst] at h
      rw [ih c1 c' h, workers_length_step hst]

/-- What the drain loop has emitted plus what it still has to drain is
always exactly the requested page list. -/
theorem transcript_step {P : Params} {c c' : Cfg} {e : Ev}
    (h : step P c e = some c') :
    c'.transcript.map Prod.fst ++ c'.asmRemaining =
      c.transcript.map Prod.fst ++ c.asmRemaining := by
  rcases step_cases P c c' e h with
    ⟨w, p, rest, he, heq, hs, hc⟩ | ⟨w, p, rest, he, heq, hs, hc⟩ |
    ⟨w, rem, p, v, ph, he, heq, hp, hv, hph1, hph2, hc⟩ |
    ⟨w, rem, p, he, heq, hp, hc⟩ | ⟨w, he, heq, hc⟩ |
    ⟨p, rest, entry, he, hab, hex, hrem, hterm, hnf, hc⟩ |
    ⟨p, rest, er, b, he, hab, hex, hrem, hs, hc⟩ |
    ⟨he, hab, hex, hall, hc⟩ <;> subst hc <;> try rfl
  show (c.transcript ++ [(p, entry)]).map Prod.fst ++ rest = _
  rw [hrem]
  simp

theorem transcript_run (P : Params) (tr : List Ev) :
    ∀ (c c' : Cfg), run P c tr = some c' →
      c'.transcript.map Prod.fst ++ c'.asmRemaining =
        c.transcript.map Prod.fst ++ c.asmRemaining := by
  induction tr with
  | nil => intro c c' h; cases h; rfl
  | cons e tr ih =>
    intro c c' h
    simp only [run] at h
    cases hst : step P c e with
    | none => rw [hst] at h; cases h
    | some c1 =>
      rw [hst] at h
      rw [ih c1 c' h, transcript_step hst]

/-- Once aborted, the run stays aborted and the transcript is frozen. -/
theorem aborted_stable_step {P : Params} {c c' : Cfg} {e : Ev}
    (h : step P c e = some c') (hab : c.aborted = true) :
    c'.aborted = true ∧ c'.transcript = c.transcript := by
  rcases step_cases P c c' e h with
    ⟨w, p, rest, he, heq, hs, hc⟩ | ⟨w, p, rest, he, heq, hs, hc⟩ |
    ⟨w, rem, p, v, ph, he, heq, hp, hv, hph1, hph2, hc⟩ |
    ⟨w, rem, p, he, heq, hp, hc⟩ | ⟨w, he, heq, hc⟩ |
    ⟨p, rest, entry, he, habF, hex, hrem, hterm, hnf, hc⟩ |
    ⟨p, rest, er, b, he, habF, hex, hrem, hs, hc⟩ |
    ⟨he, hab2, hex, hall, hc⟩ <;> subst hc <;>
    first
    | exact ⟨hab, rfl⟩
    | (rw [hab] at habF; cases habF)

theorem aborted_stable_run (P : Params) (tr : List Ev) :
    ∀ (c c' : Cfg), run P c tr = some c' → c.aborted = true →
      c'.aborted = true ∧ c'.transcript = c.transcript := by
  induction tr with
  | nil => intro c c' h hab; cases h; exact ⟨hab, rfl⟩
  | cons e tr ih =>
    intro c c' h hab
    simp only [run] at h
    cases hst : step P c e with
    | none => rw [hst] at h; cases h
    | some c1 =>
      rw [hst] at h
      obtain ⟨h1, h2⟩ := aborted_stable_step hst hab
      obtain ⟨h3, h4⟩ := ih c1 c' h h1
      exact ⟨h3, h2 ▸ h4⟩

/-- `exited` implies all workers were joined, preserved by every step. -/
theorem joined_step {P : Params} {c c' : Cfg} {e : Ev}
    (h : step P c e = some c') (hq : JoinedOnExit c) : JoinedOnExit c' := by
  rcases step_cases P c c' e h with
    ⟨w, p, rest, he, heq, hs, hc⟩ | ⟨w, p, rest, he, heq, hs, hc⟩ |
    ⟨w, rem, p, v, ph, he, heq, hp, hv, hph1, hph2, hc⟩ |
    ⟨w, rem, p, he, heq, hp, hc⟩ | ⟨w, he, heq, hc⟩ |
    ⟨p, rest, entry, he, hab, hex, hrem, hterm, hnf, hc⟩ |
    ⟨p, rest, er, b, he, hab, hex, hrem, hs, hc⟩ |
    ⟨he, hab, hex, hall, hc⟩ <;> subst hc <;> intro hex'
  · exact absurd ((hq hex') _ (List.getElem?_mem heq)) (by simp [Phase.isDone])
  · exact absurd ((hq hex') _ (List.getElem?_mem heq)) (by simp [Phase.isDone])
  · exact absurd ((hq hex') _ (List.getElem?_mem heq)) (by simp [Phase.isDone])
  · exact absurd ((hq hex') _ (List.getElem?_mem heq)) (by simp [Phase.isDone])
  · exact absurd ((hq hex') _ (List.getElem?_mem heq)) (by simp [Phase.isDone])
  · rw [hex'] at hex; cases hex
  · rw [hex'] at hex; cases hex
  · intro w' hw'
    exact List.all_eq_true.mp hall w' hw'

theorem joined_run (P : Params) (tr : List Ev) :
    ∀ (c c' : Cfg), run P c tr = some c' → JoinedOnExit c → JoinedOnExit c' := by
  induction tr with
  | nil => intro c c' h hq; cases h; exact hq
  | cons e tr ih =>
    intro c c' h hq
    simp only [run] at h
    cases hst : step P c e with
    | none => rw [hst] at h; cases h
    | some c1 =>
      rw [hst] at h
      exact ih c1 c' h (joined_step hst hq)

/-- In an invariant configuration where every worker finished its loop
normally and no cancellation happened, every requested page has a
terminal outcome. -/
theorem inv_all_done_terminal {P : Params} {c : Cfg} (hI : Inv P c)
    (hne : c.workers ≠ [])
    (hdone : ∀ w ∈ c.workers, w.phase = Phase.done true)
    (hnab : c.aborted = false) :
    ∀ i ∈ P.pages, (c.slots i).isTerminal = true := by
  obtain ⟨hD, hG, hH⟩ := hI
  intro i hi
  obtain ⟨w0, hw0⟩ := List.exists_mem_of_ne_nil c.workers hne
  have hrem : w0.remaining = [] := hD w0 hw0 (hdone w0 hw0)
  have hnu : c.slots i ≠ Slot.unclaimed :=
    hG w0 hw0 i hi (by rw [hrem]; exact List.not_mem_nil i)
  have hnc : c.slots i ≠ Slot.claimed := by
    intro hcl
    rcases hH i hcl with hA | hPr | ⟨k, wk, hk, hdf⟩
    · rw [hnab] at hA; cases hA
    · obtain ⟨wk, hmem, hpred⟩ := List.countP_pos_iff.mp hPr
      have hd := hdone wk hmem
      rw [hd] at hpred
      simp at hpred
    · have hd := hdone wk (List.getElem?_mem hk)
      rw [hd] at hdf
      cases hdf
  cases hsl : c.slots i <;> simp_all [Slot.isTerminal]

theorem procInv_init (P : Params) : ProcInv (initCfg P) := by
  intro i
  constructor
  · simp [procs, initCfg, List.countP_replicate]
  · intro hpos
    simp [procs, initCfg, List.countP_replicate] at hpos

theorem procInv_step {P : Params} {c c' : Cfg} {e : Ev}
    (h : step P c e = some c') (hPI : ProcInv c) : ProcInv c' := by
  rcases step_cases P c c' e h with
    ⟨w, p, rest, he, heq, hs, hc⟩ | ⟨w, p, rest, he, heq, hs, hc⟩ |
    ⟨w, rem, p, v, ph, he, heq, hp, hv, hph1, hph2, hc⟩ |
    ⟨w, rem, p, he, heq, hp, hc⟩ | ⟨w, he, heq, hc⟩ |
    ⟨p, rest, entry, he, hab, hex, hrem, hterm, hnf, hc⟩ |
    ⟨p, rest, er, b, he, hab, hex, hrem, hs, hc⟩ |
    ⟨he, hab, hex, hall, hc⟩ <;> subst hc <;> intro i <;>
    obtain ⟨h1, h2⟩ := hPI i <;> simp only [procs] at h1 h2 ⊢
  · -- skip
    have hk := procs_list_set_keep c.workers w _ ⟨rest, Phase.idle⟩ heq i
      (by simp) (by simp)
    exact ⟨by omega, fun hpos => h2 (by omega)⟩
  · -- claim
    by_cases hip : i = p
    · subst hip
      have hzero : List.countP (fun x => x.phase = Phase.processing i) c.workers = 0 := by
        rcases Nat.eq_zero_or_pos
          (List.countP (fun x => decide (x.phase = Phase.processing i)) c.workers)
          with hz | hz
        · exact hz
        · exact absurd (h2 hz) (by rw [hs]; simp)
      have he2 := procs_list_set_enter c.workers w _ ⟨rest, Phase.processing i⟩ heq i
        (by simp) rfl
      simp only [procs] at hzero he2
      refine ⟨by omega, fun _ => ?_⟩
      show setS c.slots i Slot.claimed i = Slot.claimed
      rw [setS_self]
    · have hk := procs_list_set_keep c.workers w _ ⟨rest, Phase.processing p⟩ heq i
        (by simp) (by simp [Phase.processing.injEq]; exact fun hh => hip hh.symm)
      refine ⟨by omega, fun hpos => ?_⟩
      show setS c.slots p Slot.claimed i = Slot.claimed
      rw [setS_other _ _ _ _ hip]
      exact h2 (by omega)
  · -- finish, recording
    by_cases hip : i = p
    · subst hip
      have hl := procs_list_set_leave c.workers w _ ⟨rem, ph⟩ heq i rfl (hph2 i)
      exact ⟨by omega, fun hpos => absurd hpos (by omega)⟩
    · have hk := procs_list_set_keep c.workers w _ ⟨rem, ph⟩ heq i
        (by simp [Phase.processing.injEq]; exact fun hh => hip hh.symm) (hph2 i)
      refine ⟨by omega, fun hpos => ?_⟩
      show setS c.slots p v i = Slot.claimed
      rw [setS_other _ _ _ _ hip]
      exact h2 (by omega)
  · -- interrupt
    by_cases hip : i = p
    · subst hip
      have hl := procs_list_set_leave c.workers w _ ⟨rem, Phase.done false⟩ heq i
        rfl (by simp)
      exact ⟨by omega, fun hpos => absurd hpos (by omega)⟩
    · have hk := procs_list_set_keep c.workers w _ ⟨rem, Phase.done false⟩ heq i
        (by simp [Phase.processing.injEq]; exact fun hh => hip hh.symm) (by simp)
      exact ⟨by omega, fun hpos => h2 (by omega)⟩
  · -- exit
    have hk := procs_list_set_keep c.workers w _ ⟨[], Phase.done true⟩ heq i
      (by simp) (by simp)
    exact ⟨by omega, fun hpos => h2 (by omega)⟩
  · exact ⟨h1, h2⟩
  · -- cancellation keeps claimed slots claimed
    refine ⟨h1, fun hpos => ?_⟩
    show stop_threads P.pages c.slots i = Slot.claimed
    unfold stop_threads
    split
    · rfl
    · exact h2 hpos
  · exact ⟨h1, h2⟩

theorem procInv_run (P : Params) (tr : List Ev) :
    ∀ (c c' : Cfg), run P c tr = some c' → ProcInv c → ProcInv c' := by
  induction tr with
  | nil => intro c c' h hPI; cases h; exact hPI
  | cons e tr ih =>
    intro c c' h hPI
    simp only [run] at h
    cases hst : step P c e with
    | none => rw [hst] at h; cases h
    | some c1 =>
      rw [hst] at h
      exact ih c1 c' h (procInv_step hst hPI)

/-- The `assert results[n] is True` in `page_thread` can never fail: in
every reachable configuration, the slot of a page some worker is
processing holds `True` (claimed). -/
theorem page_thread_assert_holds (P : Params) (tr : List Ev) (c : Cfg)
    (hrun : run P (initCfg P) tr = some c) (w : Nat) (rem : List Nat) (p : Nat)
    (hw : c.workers[w]? = some ⟨rem, Phase.processing p⟩) :
    c.slots p = Slot.claimed := by
  have hPI := procInv_run P tr _ _ hrun (procInv_init P)
  refine (hPI p).2 (List.countP_pos_iff.mpr ?_)
  exact ⟨⟨rem, Phase.processing p⟩, List.getElem?_mem hw, by simp⟩

/-! ### Claim theorems about the pipeline -/

/-- C2: for every number of workers, every page set and EVERY
interleaving: (a) each page is claimed at most once and records at most
one terminal outcome (the unclaimed check and the transition to claimed
are one atomic step under the lock, so no page is ever processed twice);
(b) a page that ends in a terminal state was claimed by exactly one
worker and recorded exactly once; (c) when every worker has finished its
loop normally and no cancellation happened, every requested page holds a
terminal outcome. -/
theorem page_thread_claim_atomicity (P : Params) (tr : List Ev) (c' : Cfg)
    (hjobs : 1 ≤ P.nJobs)
    (hrun : run P (initCfg P) tr = some c') (i : Nat) :
    countPair (claimsAlong P (initCfg P) tr) i ≤ 1 ∧
    countPair (recsAlong P (initCfg P) tr) i ≤ 1 ∧
    ((c'.slots i).isTerminal = true →
      countPair (claimsAlong P (initCfg P) tr) i = 1 ∧
      countPair (recsAlong P (initCfg P) tr) i = 1) ∧
    ((∀ w ∈ c'.workers, w.phase = Phase.done true) → c'.aborted = false →
      i ∈ P.pages → (c'.slots i).isTerminal = true) := by
  have hub : uBound (initCfg P) i = 1 := by simp [uBound, initCfg]
  have hpr : procs (initCfg P) i = 0 := by
    simp [procs, initCfg, List.countP_replicate]
  have h1 := claims_bound_run P tr _ _ hrun i
  have h2 := recs_bound_run P tr _ _ hrun i
  have h3 := recs_le_claims_run P tr _ _ hrun i
  rw [hub] at h1
  have hvb : vBound (initCfg P) i = 1 := by simp [vBound, hub, hpr]
  rw [hvb] at h2
  rw [hpr] at h3
  refine ⟨h1, h2, ?_, ?_⟩
  · intro ht
    rcases terminal_origin_run P tr _ _ hrun i ht with h4 | h4
    · exact absurd h4 (by simp [initCfg, Slot.isTerminal])
    · constructor <;> omega
  · intro hdone hnab hi
    have hlen := workers_length_run P tr _ _ hrun
    simp only [initCfg, List.length_replicate] at hlen
    have hne : c'.workers ≠ [] := by
      intro hh
      rw [hh] at hlen
      simp at hlen
      omega
    exact inv_all_done_terminal (inv_run P tr _ _ hrun (inv_init P)) hne hdone hnab i hi

/-- Witness for `page_thread_claim_atomicity`: one worker, page set
`[0]`, successful OCR — page 0 is claimed exactly once and records
exactly one terminal outcome. -/
theorem page_thread_claim_atomicity_witness :
    countPair (claimsAlong Pone (initCfg Pone) trOne) 0 = 1 ∧
      countPair (recsAlong Pone (initCfg Pone) trOne) 0 = 1 :=
  (page_thread_claim_atomicity Pone trOne (runD Pone trOne)
    (by decide) rfl 0).2.2.1 rfl

/-- C1, counterexample: a run requesting the pages in the order 37, 17
(a valid request, e.g. `-p "38,18"`) appends its transcript fragments in
the order 37, 17 — the drain loop follows the requested list, so the
universally quantified strictly-ascending claim fails. -/
theorem transcript_not_ascending :
    (run Pdesc (initCfg Pdesc) trDesc).map (fun c => c.transcript.map Prod.fst) =
        some [37, 17] ∧
      ¬ List.Pairwise (· < ·) ([37, 17] : List Nat) :=
  ⟨rfl, by decide⟩

/-- C1, amended: for every run and every interleaving of worker
completions, the single consuming thread appends transcript entries
exactly in the order of the requested page list — the emitted prefix plus
the pages still to drain always equals the requested list, each requested
page getting exactly one entry once the drain completes — independent of
the order in which workers finish; in particular the fragments are in
strictly ascending page-index order whenever the requested list itself is
ascending (as when the whole document is processed). -/
theorem transcript_request_order (P : Params) (tr : List Ev) (c' : Cfg)
    (hrun : run P (initCfg P) tr = some c') :
    c'.transcript.map Prod.fst ++ c'.asmRemaining = P.pages ∧
    (List.Pairwise (· < ·) P.pages →
      List.Pairwise (· < ·) (c'.transcript.map Prod.fst)) ∧
    (c'.asmRemaining = [] → c'.transcript.map Prod.fst = P.pages) := by
  have h0 := transcript_run P tr _ _ hrun
  simp only [initCfg, List.map_nil, List.nil_append] at h0
  refine ⟨h0, ?_, ?_⟩
  · intro hp
    have hsub : (c'.transcript.map Prod.fst).Sublist P.pages := by
      rw [← h0]
      exact List.sublist_append_left _ _
    exact hp.sublist hsub
  · intro hend
    rw [hend, List.append_nil] at h0
    exact h0

/-- Witness for `transcript_request_order`: the one-page run drained to
completion emits exactly the requested list `[0]`. -/
theorem transcript_request_order_witness :
    (runD Pone [Ev.wClaim 0, Ev.wFinish 0, Ev.wExit 0, Ev.aDrain]).transcript.map
        Prod.fst = Pone.pages :=
  (transcript_request_order Pone [Ev.wClaim 0, Ev.wFinish 0, Ev.wExit 0, Ev.aDrain]
    _ rfl).2.2 rfl

/-- C5: a worker whose page processing raises an ordinary exception
(neither the no-image condition nor a user interrupt): under the resume
policy it records `False` (the NoImage outcome) for the page and returns
to the top of its loop (same remaining pages, idle), while under the
abort policy it records the exception as the Failed outcome and
terminates its own loop — in both cases leaving every other slot, the
abort flag and the transcript untouched (it never cancels the remaining
pages itself). -/
theorem worker_error_policy (P : Params) (c c' : Cfg) (w : Nat)
    (rem : List Nat) (p code : Nat)
    (hw : c.workers[w]? = some ⟨rem, Phase.processing p⟩)
    (hp : P.proc p = ProcResult.err code false)
    (hstep : step P c (Ev.wFinish w) = some c') :
    (P.resumeOnError = true →
      c'.slots p = Slot.noImage ∧ c'.workers[w]? = some ⟨rem, Phase.idle⟩) ∧
    (P.resumeOnError = false →
      c'.slots p = Slot.failed code false ∧
      c'.workers[w]? = some ⟨rem, Phase.done false⟩) ∧
    (∀ q, q ≠ p → c'.slots q = c.slots q) ∧
    c'.aborted = c.aborted ∧ c'.transcript = c.transcript ∧
    c'.asmRemaining = c.asmRemaining := by
  have hwlt : w < c.workers.length := (List.getElem?_eq_some.mp hw).1
  simp only [step, hw, hp] at hstep
  split at hstep <;> rename_i hcond
  · cases hstep
    refine ⟨fun _ => ⟨setS_self .., getElem?_set_self _ hwlt⟩, fun hres => ?_,
      fun q hq => setS_other _ _ _ _ hq, rfl, rfl, rfl⟩
    rw [hres] at hcond
    simp at hcond
  · cases hstep
    refine ⟨fun hres => ?_, fun _ => ⟨setS_self .., getElem?_set_self _ hwlt⟩,
      fun q hq => setS_other _ _ _ _ hq, rfl, rfl, rfl⟩
    rw [hres] at hcond
    simp at hcond

/-- Witness for `worker_error_policy`: page 0 raising error 7, under
resume the slot degrades to NoImage with the worker back in its loop,
under abort it records the exception with the worker terminated. -/
theorem worker_error_policy_witness :
    ((stepD PerrResume (runD PerrResume [Ev.wClaim 0]) (Ev.wFinish 0)).slots 0 =
        Slot.noImage ∧
      (stepD PerrResume (runD PerrResume [Ev.wClaim 0]) (Ev.wFinish 0)).workers[0]? =
        some ⟨[1], Phase.idle⟩) ∧
    ((stepD PerrAbort (runD PerrAbort [Ev.wClaim 0]) (Ev.wFinish 0)).slots 0 =
        Slot.failed 7 false ∧
      (stepD PerrAbort (runD PerrAbort [Ev.wClaim 0]) (Ev.wFinish 0)).workers[0]? =
        some ⟨[1], Phase.done false⟩) :=
  ⟨(worker_error_policy PerrResume (runD PerrResume [Ev.wClaim 0])
      (stepD PerrResume (runD PerrResume [Ev.wClaim 0]) (Ev.wFinish 0))
      0 [1] 0 7 rfl rfl rfl).1 rfl,
   (worker_error_policy PerrAbort (runD PerrAbort [Ev.wClaim 0])
      (stepD PerrAbort (runD PerrAbort [Ev.wClaim 0]) (Ev.wFinish 0))
      0 [1] 0 7 rfl rfl rfl).2.1 rfl⟩

/-- C6: an error caused by a user-initiated interrupt
(`CalledProcessInterrupted` with `by_user`) is always fatal: whatever the
policy — in particular under resume — the worker records the exception as
the Failed terminal state and terminates its own loop, instead of
degrading the page to NoImage and continuing. -/
theorem worker_interrupt_always_fatal (P : Params) (c c' : Cfg) (w : Nat)
    (rem : List Nat) (p code : Nat)
    (hw : c.workers[w]? = some ⟨rem, Phase.processing p⟩)
    (hp : P.proc p = ProcResult.err code true)
    (hstep : step P c (Ev.wFinish w) = some c') :
    c'.slots p = Slot.failed code true ∧
    c'.workers[w]? = some ⟨rem, Phase.done false⟩ ∧
    c'.slots p ≠ Slot.noImage ∧
    (∀ q, q ≠ p → c'.slots q = c.slots q) := by
  have hwlt : w < c.workers.length := (List.getElem?_eq_some.mp hw).1
  simp only [step, hw, hp] at hstep
  split at hstep <;> rename_i hcond
  · simp at hcond
  · cases hstep
    refine ⟨setS_self .., getElem?_set_self _ hwlt, ?_,
      fun q hq => setS_other _ _ _ _ hq⟩
    show setS c.slots p (Slot.failed code true) p ≠ Slot.noImage
    rw [setS_self]
    simp

/-- Witness for `worker_interrupt_always_fatal`: RESUME policy, page 0
interrupted by the user — still recorded as Failed, worker terminated. -/
theorem worker_interrupt_always_fatal_witness :
    (stepD PuserInt (runD PuserInt [Ev.wClaim 0]) (Ev.wFinish 0)).slots 0 =
        Slot.failed 9 true ∧
      (stepD PuserInt (runD PuserInt [Ev.wClaim 0]) (Ev.wFinish 0)).workers[0]? =
        some ⟨[1], Phase.done false⟩ :=
  ⟨(worker_interrupt_always_fatal PuserInt (runD PuserInt [Ev.wClaim 0])
      (stepD PuserInt (runD PuserInt [Ev.wClaim 0]) (Ev.wFinish 0))
      0 [1] 0 9 rfl rfl rfl).1,
   (worker_interrupt_always_fatal PuserInt (runD PuserInt [Ev.wClaim 0])
      (stepD PuserInt (runD PuserInt [Ev.wClaim 0]) (Ev.wFinish 0))
      0 [1] 0 9 rfl rfl rfl).2.1⟩

/-- C7: when the drain loop of `_process` observes a Failed outcome, the
resulting step marks every page of the run as claimed (cancelling all
remaining unclaimed pages) while leaving slots outside the run unchanged,
sets the debug flag (so intermediate files are retained), aborts, writes
no transcript entry for the failed page, and preserves every entry
already written; in every continuation the transcript never grows again,
and the final `sys.exit(1)` can only happen once every worker thread has
terminated (the join). -/
theorem failed_drain_aborts (P : Params) (tr : List Ev) (c c' : Cfg)
    (p : Nat) (rest : List Nat) (er : Nat) (b : Bool)
    (hrun : run P (initCfg P) tr = some c)
    (hrem : c.asmRemaining = p :: rest) (hsl : c.slots p = Slot.failed er b)
    (hab : c.aborted = false) (hex : c.exited = false)
    (hstep : step P c Ev.aDrain = some c') :
    c'.transcript = c.transcript ∧ c'.debug = true ∧ c'.aborted = true ∧
    (∀ i ∈ P.pages, c'.slots i = Slot.claimed) ∧
    (∀ i, i ∉ P.pages → c'.slots i = c.slots i) ∧
    (∀ (tr' : List Ev) (c'' : Cfg), run P c' tr' = some c'' →
      c''.transcript = c.transcript ∧
      (c''.exited = true → ∀ w ∈ c''.workers, w.phase.isDone = true)) := by
  have hstep' := hstep
  simp only [step] at hstep
  split at hstep <;> rename_i hcond
  · cases hstep
  · split at hstep
    · cases hstep
    · rename_i p' rest' hrem'
      rw [hrem] at hrem'
      injection hrem' with h1 h2
      subst h1
      subst h2
      split at hstep
      · cases hstep
      · cases hstep
      · rename_i hs2
        rw [hsl] at hs2
        cases hs2
      · rename_i f hs2
        rw [hsl] at hs2
        cases hs2
      · rename_i er2 b2 hs2
        cases hstep
        refine ⟨rfl, rfl, rfl, ?_, ?_, ?_⟩
        · intro i hi
          show stop_threads P.pages c.slots i = Slot.claimed
          unfold stop_threads
          rw [if_pos hi]
        · intro i hi
          show stop_threads P.pages c.slots i = c.slots i
          unfold stop_threads
          rw [if_neg hi]
        · intro tr' c'' hrun'
          have hstab := aborted_stable_run P tr' _ c'' hrun' rfl
          have hq0 : JoinedOnExit (initCfg P) := by
            intro hh
            exact absurd hh (by simp [initCfg])
          have hq1 := joined_run P tr _ _ hrun hq0
          have hq2 := joined_step hstep' hq1
          have hq3 := joined_run P tr' _ _ hrun' hq2
          exact ⟨hstab.2, fun hx => hq3 hx⟩

/-- Witness for `failed_drain_aborts`: one worker, abort policy, page 0
fails; the drain step retains diagnostics, claims the untouched page 1,
and freezes the (empty) transcript. -/
theorem failed_drain_aborts_witness :
    (stepD PerrAbort (runD PerrAbort [Ev.wClaim 0, Ev.wFinish 0]) Ev.aDrain).debug =
        true ∧
      (stepD PerrAbort (runD PerrAbort [Ev.wClaim 0, Ev.wFinish 0]) Ev.aDrain).slots 1 =
        Slot.claimed ∧
      (stepD PerrAbort (runD PerrAbort [Ev.wClaim 0, Ev.wFinish 0]) Ev.aDrain).transcript =
        (runD PerrAbort [Ev.wClaim 0, Ev.wFinish 0]).transcript := by
  have T := failed_drain_aborts PerrAbort [Ev.wClaim 0, Ev.wFinish 0] _ _
    0 [1] 7 false rfl rfl rfl rfl rfl rfl
  exact ⟨T.2.1, T.2.2.2.1 1 (by decide), T.1⟩

/-! ### Tesseract engine -/

/-- C9: `recognize` removes the temporary directory it creates on every
exit path — whatever combination of the spawn, wait and open steps
raising, and whether the caller's `with` body returns or raises, the
action trace begins with `mkdtemp` and ends with `rmtree` of that same
directory. -/
theorem recognize_releases_tempdir (env : Tesseract.RecognizeEnv)
    (body : Except Nat Nat) :
    (Tesseract.recognize env body).2.head? = some (Tesseract.FsOp.mkdtemp 0) ∧
      (Tesseract.recognize env body).2.getLast? = some (Tesseract.FsOp.rmtree 0) := by
  unfold Tesseract.recognize
  rcases env with ⟨s, w, o⟩
  cases s <;> cases w <;> cases o <;> cases body <;>
    simp [List.getLast?_append]

/-- C8: constructing the tesseract `Engine` does NOT fail when the tool
is unusable.  On a machine without a tesseract binary, language discovery
does raise `UnknownLanguageList` when actually iterated — but
`get_languages` is a generator function, so the bare call inside
`Engine.__init__` builds a generator without running its body, the
`except UnknownLanguageList` handler is dead code, and construction
succeeds instead of raising `EngineNotFound`. -/
theorem engine_init_missing_tool_bug :
    Tesseract.get_tesseract_data_directory envNoTesseract =
        Except.error Tesseract.TessError.unknownLanguageList ∧
      (Tesseract.get_languages envNoTesseract).force () =
        Except.error Tesseract.TessError.unknownLanguageList ∧
      Tesseract.Engine.init envNoTesseract = Except.ok { name := "tesseract" } :=
  ⟨rfl, rfl, rfl⟩

end Ocrodjvu
